import Mathlib

/-!
Shallow embedding of `baseline/utilities/utils.py` (dcase20_task4):
the `ManyHotEncoder` label codec, the `SaveBest` / `EarlyStopping`
training callbacks and the `AverageMeter` / `AverageMeterSet` running
statistics, together with proofs of the specification claims about them.

Conventions of the embedding:
* numpy 2-D float arrays are modelled by `NpMatrix` (explicit shape plus an
  entry function); the label values appearing in this module are the
  integers -1, 0, 1, so entries are `Int`;
* Python `float` metric values are modelled by `Int` (the claims only use
  integer values); `numpy.inf`, the initial best value of the callbacks,
  is modelled by `none` in an `Option Int`;
* Python exceptions (`ValueError` from `list.index`, `NotImplementedError`,
  `ZeroDivisionError`, `AssertionError`) are modelled by `Except String`;
* `pandas` NaN entries are modelled by `none` in an `Option String`;
* the dynamic type dispatch of `encode_weak` / `encode_strong_df` over
  str / DataFrame / Series / list inputs is modelled by explicit inductive
  input types (`WeakInput`, `StrongInput`) with one constructor per
  Python runtime type the code inspects.
-/

/-- Result of Python list slicing bound normalisation: the index `a`
(possibly negative) clamped into `[0, n]` the way `y[a:b]` does. -/
def sliceIdx (a : Int) (n : Nat) : Nat :=
  if a < 0 then (Int.toNat ((n : Int) + a)) else min a.toNat n

/-- Embedding of a numpy 2-D array: an explicit shape and an entry
function (row index, column index). -/
structure NpMatrix where
  rows : Nat
  cols : Nat
  entry : Nat → Nat → Int

/-- Embedding of `np.zeros((n, m))`. -/
def NpMatrix.zeros (n m : Nat) : NpMatrix :=
  { rows := n, cols := m, entry := fun _ _ => 0 }

/-- Embedding of `np.zeros((n, m)) - 1`, the all minus-one sentinel. -/
def NpMatrix.minusOnes (n m : Nat) : NpMatrix :=
  { rows := n, cols := m, entry := fun _ _ => -1 }

/-- Embedding of the numpy slice assignment `y[onset:offset, c] = 1`. -/
def NpMatrix.setSlice (y : NpMatrix) (onset offset : Int) (c : Nat) : NpMatrix :=
  { y with entry := fun r c' =>
      if c' = c ∧ sliceIdx onset y.rows ≤ r ∧ r < sliceIdx offset y.rows then 1
      else y.entry r c' }

/-- Embedding of the numpy full-column assignment `y[:, c] = 1`. -/
def NpMatrix.setColFull (y : NpMatrix) (c : Nat) : NpMatrix :=
  { y with entry := fun r c' =>
      if c' = c ∧ r < y.rows then 1 else y.entry r c' }

/-- Embedding of Python `labels.index(l)`: position of the first
occurrence, raising `ValueError` when the label is absent. -/
def labelIndex (labels : List String) (l : String) : Except String Nat :=
  if l ∈ labels then .ok (labels.indexOf l)
  else .error ("ValueError: " ++ l ++ " is not in list")

/-- Embedding of the `ManyHotEncoder` class state: the label vocabulary
and the optional frame count (`None` when not supplied). -/
structure ManyHotEncoder where
  labels : List String
  n_frames : Option Nat

/-- Embedding of one row of a strong-label DataFrame (or of a Series with
the keys onset / offset / event_label): the `event_label` cell (`none`
models NaN) and the onset / offset cells, converted with `int(...)`. -/
structure DfRow where
  event_label : Option String
  onset : Int
  offset : Int
  deriving DecidableEq

/-- Embedding of one element of a sequence passed to `encode_strong_df`:
a bare label string, a length-3 `[label, onset, offset]` list, or a value
of any other runtime type (carrying that type's name). -/
inductive SeqItem where
  | strI (s : String)
  | tupleI (event_label : String) (onset offset : Int)
  | badI (tyName : String)
  deriving DecidableEq

/-- Embedding of the runtime types `encode_strong_df` dispatches on:
a str, a DataFrame (with a flag telling whether the onset / offset /
event_label columns are all present), a Series (with a flag telling
whether those keys are in its index; `row` is read in that case and
`items` is iterated otherwise), a list / ndarray, or a value of any
other type (carrying that type's name). -/
inductive StrongInput where
  | strIn (s : String)
  | dfIn (hasCols : Bool) (dfRows : List DfRow)
  | seriesIn (hasKeys : Bool) (row : DfRow) (items : List SeqItem)
  | listIn (items : List SeqItem)
  | otherIn (tyName : String)
  deriving DecidableEq

/-- Error text of the final `raise NotImplementedError` in
`encode_strong_df`, naming the offending type. -/
def strongTypeErr (tyName : String) : String :=
  "NotImplementedError: To encode_strong, type is pandas.Dataframe with onset, offset and event_label columns, or it is a list or pandas Series of event labels, type given: " ++ tyName

/-- Loop body shared by the sequence branch of `encode_strong_df`:
a bare string marks the whole column, a length-3 item marks the
`[onset, offset)` slice, anything else raises `NotImplementedError`.
The source guards both cases with `is not ""` (identity on the empty
string), modelled as value inequality. -/
def encodeSeqStep (labels : List String) (y : NpMatrix) (it : SeqItem) :
    Except String NpMatrix :=
  match it with
  | .strI s =>
      if s ≠ "" then (labelIndex labels s).map (fun i => y.setColFull i)
      else .ok y
  | .tupleI lbl onset offset =>
      if lbl ≠ "" then (labelIndex labels lbl).map (fun i => y.setSlice onset offset i)
      else .ok y
  | .badI tyName =>
      .error ("NotImplementedError: cannot encode strong, type mismatch: " ++ tyName)

/-- Loop body of the DataFrame branch of `encode_strong_df`: NaN labels
are skipped, otherwise the label's column is sliced to 1 on
`[onset, offset)`. -/
def encodeDfStep (labels : List String) (y : NpMatrix) (row : DfRow) :
    Except String NpMatrix :=
  match row.event_label with
  | none => .ok y
  | some lbl => (labelIndex labels lbl).map (fun i => y.setSlice row.onset row.offset i)

/-- Embedding of `ManyHotEncoder.encode_strong_df`. -/
def ManyHotEncoder.encode_strong_df (e : ManyHotEncoder) (label_df : StrongInput) :
    Except String NpMatrix :=
  match e.n_frames with
  | none => .error "AssertionError: n_frames need to be specified when using strong encoder"
  | some n =>
    match label_df with
    | .strIn s =>
        if s = "empty" then .ok (NpMatrix.minusOnes n e.labels.length)
        else .error (strongTypeErr "str")
    | .dfIn hasCols dfRows =>
        if hasCols then
          dfRows.foldlM (encodeDfStep e.labels) (NpMatrix.zeros n e.labels.length)
        else .ok (NpMatrix.zeros n e.labels.length)
    | .seriesIn hasKeys row items =>
        if hasKeys then encodeDfStep e.labels (NpMatrix.zeros n e.labels.length) row
        else items.foldlM (encodeSeqStep e.labels) (NpMatrix.zeros n e.labels.length)
    | .listIn items =>
        items.foldlM (encodeSeqStep e.labels) (NpMatrix.zeros n e.labels.length)
    | .otherIn tyName => .error (strongTypeErr tyName)

/-- Embedding of the runtime types `encode_weak` dispatches on: a str
(a non-sentinel string is iterated character by character), a DataFrame
(empty, or with an `event_label` column, or iterated as its column
names), or a list / Series of labels (`none` models NaN). -/
inductive WeakInput where
  | strIn (s : String)
  | dfIn (isEmpty : Bool) (hasEventCol : Bool) (eventCol : List (Option String))
      (colNames : List String)
  | listIn (items : List (Option String))
  deriving DecidableEq

/-- Loop body of `encode_weak`: NaN entries are skipped, any other label
is looked up (`ValueError` when absent) and its entry set to 1. -/
def encodeWeakStep (labels : List String) (y : List Int) (it : Option String) :
    Except String (List Int) :=
  match it with
  | none => .ok y
  | some lbl => (labelIndex labels lbl).map (fun i => y.set i 1)

/-- Embedding of `ManyHotEncoder.encode_weak`; the weak label vector is a
list with one entry per vocabulary label. -/
def ManyHotEncoder.encode_weak (e : ManyHotEncoder) (input : WeakInput) :
    Except String (List Int) :=
  match input with
  | .strIn s =>
      if s = "empty" then .ok (List.replicate e.labels.length (-1))
      else (s.toList.map (fun ch => some (String.mk [ch]))).foldlM
        (encodeWeakStep e.labels) (List.replicate e.labels.length 0)
  | .dfIn isEmpty hasEventCol eventCol colNames =>
      if isEmpty then ([] : List (Option String)).foldlM
        (encodeWeakStep e.labels) (List.replicate e.labels.length 0)
      else if hasEventCol then eventCol.foldlM
        (encodeWeakStep e.labels) (List.replicate e.labels.length 0)
      else (colNames.map some).foldlM
        (encodeWeakStep e.labels) (List.replicate e.labels.length 0)
  | .listIn items =>
      items.foldlM (encodeWeakStep e.labels) (List.replicate e.labels.length 0)

/-- Loop body of `ManyHotEncoder.decode_weak`: append the label whose
entry equals 1, walking the vector with its index. -/
def decodeWeakAux (labels : List String) : Nat → List Int → List String
  | _, [] => []
  | i, v :: vs =>
      if v = 1 then labels.getD i "" :: decodeWeakAux labels (i + 1) vs
      else decodeWeakAux labels (i + 1) vs

/-- Embedding of `ManyHotEncoder.decode_weak`. -/
def ManyHotEncoder.decode_weak (e : ManyHotEncoder) (vec : List Int) : List String :=
  decodeWeakAux e.labels 0 vec

/-- Accumulator pass of the contiguous-region scan: `i` is the current
frame index, the optional `s` is the start of the run currently open. -/
def runsAux : List Int → Nat → Option Nat → List (Nat × Nat)
  | [], _, none => []
  | [], i, some s => [(s, i)]
  | x :: xs, i, none =>
      if x = 0 then runsAux xs (i + 1) none else runsAux xs (i + 1) (some i)
  | x :: xs, i, some s =>
      if x = 0 then (s, i) :: runsAux xs (i + 1) none else runsAux xs (i + 1) (some s)

/-- Modelled from the spec: `DecisionEncoder.find_contiguous_regions` of
the external `dcase_util` dependency (not part of this repository), as
the spec describes it — per column, the maximal contiguous runs of
active (nonzero) frames, each reported as a half-open
`(run_start, run_end)` pair. -/
def find_contiguous_regions (activity : List Int) : List (Nat × Nat) :=
  runsAux activity 0 none

/-- Column `c` of the matrix read as a list, as `labels.T` iteration does. -/
def colList (y : NpMatrix) (c : Nat) : List Int :=
  (List.range y.rows).map (fun r => y.entry r c)

/-- Embedding of `ManyHotEncoder.decode_strong`: for each column, one
`(label, run_start, run_end)` triple per contiguous active run. -/
def ManyHotEncoder.decode_strong (e : ManyHotEncoder) (y : NpMatrix) :
    List (String × Nat × Nat) :=
  (List.range y.cols).flatMap (fun c =>
    (find_contiguous_regions (colList y c)).map (fun se => (e.labels.getD c "", se.1, se.2)))

/-- Decoded event triples repackaged as the list-of-length-3-lists input
that `decode_strong` produces and `encode_strong_df` consumes. -/
def eventsToInput (evs : List (String × Nat × Nat)) : StrongInput :=
  .listIn (evs.map (fun ev => .tupleI ev.1 (ev.2.1 : Int) (ev.2.2 : Int)))

/-- Frame `p` lies inside one of the half-open runs of the list. -/
def coveredBy (runs : List (Nat × Nat)) (p : Nat) : Prop :=
  ∃ se ∈ runs, se.1 ≤ p ∧ p < se.2

/-- Successive slice assignments `y[onset:offset, labels.index(label)] = 1`
performed by the tuple branch of `encode_strong_df` for a list of decoded
event triples. -/
def paintAll (labels : List String) (evs : List (String × Nat × Nat))
    (y0 : NpMatrix) : NpMatrix :=
  evs.foldl (fun y ev => y.setSlice (ev.2.1 : Int) (ev.2.2 : Int) (labels.indexOf ev.1)) y0

/-- Comparison of a finite value with a possibly infinite best value
(`none` models `numpy.inf`), as `value < self.best_val` evaluates. -/
def npLt (a : Int) (b : Option Int) : Bool :=
  match b with
  | none => true
  | some b => a < b

/-- Comparison of a finite value with a possibly infinite best value
(`none` models `numpy.inf`), as `value > self.best_val` evaluates. -/
def npGt (a : Int) (b : Option Int) : Bool :=
  match b with
  | none => false
  | some b => b < a

/-- Embedding of the `SaveBest` callback state; `best_val = none` models
the initial `numpy.inf` of the minimisation mode. -/
structure SaveBest where
  comp : String
  best_val : Option Int
  best_epoch : Int
  current_epoch : Int

/-- Embedding of `SaveBest.__init__`: only the comparison modes `inf`
and `sup` are accepted. -/
def SaveBest.init (val_comp : String) : Except String SaveBest :=
  if val_comp = "inf" then .ok ⟨val_comp, none, 0, 0⟩
  else if val_comp = "sup" then .ok ⟨val_comp, some 0, 0, 0⟩
  else .error "NotImplementedError: value comparison is only inf or sup"

/-- Embedding of `SaveBest.apply`: the decision is true on the first
epoch or on improvement; improvement updates best value and best epoch;
the epoch counter always advances by one. -/
def SaveBest.apply (st : SaveBest) (value : Int) : Bool × SaveBest :=
  let improved : Bool :=
    (st.comp = "inf" && npLt value st.best_val) || (st.comp = "sup" && npGt value st.best_val)
  if improved then
    (true, { st with best_epoch := st.current_epoch, best_val := some value,
                     current_epoch := st.current_epoch + 1 })
  else
    (decide (st.current_epoch = 0), { st with current_epoch := st.current_epoch + 1 })

/-- Iterated application of `SaveBest.apply`, collecting the returned
decisions in order. -/
def SaveBest.run (st : SaveBest) : List Int → List Bool × SaveBest
  | [] => ([], st)
  | v :: vs =>
      let step := st.apply v
      let rest := step.2.run vs
      (step.1 :: rest.1, rest.2)

/-- Embedding of the `EarlyStopping` callback state; `best_val = none`
models the initial `numpy.inf` of the minimisation mode. -/
structure EarlyStopping where
  patience : Int
  first_early_wait : Int
  val_comp : String
  best_val : Option Int
  current_epoch : Int
  best_epoch : Int

/-- Embedding of `EarlyStopping.__init__` (`first_early_wait` stores the
`init_patience` argument): only the comparison modes `inf` and `sup` are
accepted. -/
def EarlyStopping.init (patience : Int) (val_comp : String) (init_patience : Int) :
    Except String EarlyStopping :=
  if val_comp = "inf" then .ok ⟨patience, init_patience, val_comp, none, 0, 0⟩
  else if val_comp = "sup" then .ok ⟨patience, init_patience, val_comp, some 0, 0, 0⟩
  else .error "NotImplementedError: value comparison is only inf or sup"

/-- Embedding of `EarlyStopping.apply`: on improvement record the new
best; otherwise, when the epochs since the best epoch exceed the
patience and the warm-up has elapsed, reset the epoch counter to 0 and
return true; in all other cases advance the epoch counter and return
false. -/
def EarlyStopping.apply (st : EarlyStopping) (value : Int) : Bool × EarlyStopping :=
  let current : Bool :=
    (st.val_comp = "inf" && npLt value st.best_val)
      || (st.val_comp = "sup" && npGt value st.best_val)
  if current then
    (false, { st with best_val := some value, best_epoch := st.current_epoch,
                      current_epoch := st.current_epoch + 1 })
  else if st.current_epoch - st.best_epoch > st.patience
      ∧ st.current_epoch > st.first_early_wait then
    (true, { st with current_epoch := 0 })
  else
    (false, { st with current_epoch := st.current_epoch + 1 })

/-- Iterated application of `EarlyStopping.apply`, collecting the
returned decisions in order. -/
def EarlyStopping.run (st : EarlyStopping) : List Int → List Bool × EarlyStopping
  | [] => ([], st)
  | v :: vs =>
      let step := st.apply v
      let rest := step.2.run vs
      (step.1 :: rest.1, rest.2)

/-- Embedding of the `AverageMeter` state: last value, running average,
sum and count. -/
structure AverageMeter where
  val : Rat
  avg : Rat
  sum : Rat
  count : Int
  deriving DecidableEq

/-- Embedding of `AverageMeter.reset`: all fields return to 0. -/
def AverageMeter.reset (_ : AverageMeter) : AverageMeter :=
  ⟨0, 0, 0, 0⟩

/-- Embedding of `AverageMeter.__init__`, which just calls `reset`. -/
def AverageMeter.new : AverageMeter :=
  AverageMeter.reset ⟨0, 0, 0, 0⟩

/-- Embedding of `AverageMeter.update`: fold in `val` with weight `n`;
the final `self.avg = self.sum / self.count` raises `ZeroDivisionError`
when the accumulated count is zero. -/
def AverageMeter.update (m : AverageMeter) (val : Rat) (n : Int) :
    Except String AverageMeter :=
  let sum := m.sum + val * n
  let count := m.count + n
  if count = 0 then .error "ZeroDivisionError: division by zero"
  else .ok { val := val, sum := sum, count := count, avg := sum / (count : Rat) }

/-- Embedding of the `AverageMeterSet` state: the `meters` dict as an
association list in insertion order. -/
structure AverageMeterSet where
  meters : List (String × AverageMeter)
  deriving DecidableEq

/-- Embedding of `AverageMeterSet.__init__`: the empty dict. -/
def AverageMeterSet.empty : AverageMeterSet :=
  ⟨[]⟩

/-- Replacement of the binding of `name` in the dict, keeping insertion
order, as Python dict assignment on an existing key does. -/
def replaceMeter : List (String × AverageMeter) → String → AverageMeter →
    List (String × AverageMeter)
  | [], _, _ => []
  | (k, m) :: rest, name, m' =>
      if k = name then (k, m') :: rest else (k, m) :: replaceMeter rest name m'

/-- Embedding of `AverageMeterSet.update`: the meter is created lazily on
first use of the name, then updated in place. -/
def AverageMeterSet.update (s : AverageMeterSet) (name : String) (value : Rat)
    (n : Int) : Except String AverageMeterSet :=
  match s.meters.lookup name with
  | some m => (m.update value n).map (fun m' => ⟨replaceMeter s.meters name m'⟩)
  | none => (AverageMeter.new.update value n).map (fun m' => ⟨s.meters ++ [(name, m')]⟩)

/-- Event triple `ev` paints entry `(r, c)`: its label's column index is
`c` and `r` lies in its half-open frame range. -/
def evCovers (labels : List String) (r c : Nat) (ev : String × Nat × Nat) : Prop :=
  labels.indexOf ev.1 = c ∧ ev.2.1 ≤ r ∧ r < ev.2.2

/-- Concrete 3-by-2 0/1 matrix with one contiguous run per column, used
to witness the round-trip claim. -/
def roundtripExample : NpMatrix :=
  ⟨3, 2, fun r c => if r = c ∨ r = c + 1 then 1 else 0⟩

/-- Shape and 0/1-range invariant of the matrices built by the
non-sentinel branches of `encode_strong_df`: `n` rows, `L` columns, every
in-range entry 0 or 1. -/
def Shape01 (n L : Nat) (y : NpMatrix) : Prop :=
  y.rows = n ∧ y.cols = L ∧ ∀ r c, r < n → c < L → y.entry r c = 0 ∨ y.entry r c = 1

/-- C6: for `SaveBest` constructed with `val_comp = "inf"`, the value
sequence [5, 3, 4, 3] yields apply results [true, true, false, false]
and leaves best_val = 3 and best_epoch = 1, and every apply advances the
internal epoch counter by exactly one. -/
theorem saveBest_inf_trace_and_epoch_increment :
    ((SaveBest.init "inf").map (fun st =>
      let r := st.run [5, 3, 4, 3]
      (r.1, r.2.best_val, r.2.best_epoch)) = .ok ([true, true, false, false], some 3, 1))
    ∧ ∀ (st : SaveBest) (v : Int), (st.apply v).2.current_epoch = st.current_epoch + 1 := by
  refine ⟨rfl, fun st v => ?_⟩
  by_cases h : ((st.comp = "inf" && npLt v st.best_val)
      || (st.comp = "sup" && npGt v st.best_val)) = true
  · simp [SaveBest.apply, h]
  · simp [SaveBest.apply, h]

/-- C8: an `AverageMeterSet` has no meter before the first update of a
name (lazy creation); updating "loss" with 1 then 3, each with weight 1,
leaves the "loss" meter with value 3, average 2, sum 4 and count 2. -/
theorem averageMeterSet_loss_updates :
    AverageMeterSet.empty.meters.lookup "loss" = none
    ∧ AverageMeterSet.empty.update "loss" 1 1 = .ok ⟨[("loss", ⟨1, 1, 1, 1⟩)]⟩
    ∧ (AverageMeterSet.mk [("loss", ⟨1, 1, 1, 1⟩)]).update "loss" 3 1
        = .ok ⟨[("loss", ⟨3, 2, 4, 2⟩)]⟩ := by
  refine ⟨rfl, ?_, ?_⟩
  · simp [AverageMeterSet.update, AverageMeterSet.empty, AverageMeter.new, AverageMeter.reset,
      AverageMeter.update, List.lookup, Except.map]
  · simp [AverageMeterSet.update, AverageMeter.update, List.lookup, replaceMeter, Except.map]
    norm_num

/-- C10: updating a freshly reset `AverageMeter` with weight 0 raises
`ZeroDivisionError`; whenever the accumulated count is positive the
update succeeds and the new average equals the new sum divided by the
new count. -/
theorem averageMeter_zero_weight_error_and_avg :
    ((AverageMeter.new.reset).update 1 0 = .error "ZeroDivisionError: division by zero")
    ∧ ∀ (m : AverageMeter) (v : Rat) (n : Int), 0 < m.count + n →
        ∃ m', m.update v n = .ok m'
          ∧ m'.avg = m'.sum / (m'.count : Rat)
          ∧ m'.val = v ∧ m'.sum = m.sum + v * n ∧ m'.count = m.count + n := by
  constructor
  · simp [AverageMeter.new, AverageMeter.reset, AverageMeter.update]
  · intro m v n h
    have hne : ¬ (m.count + n = 0) := by omega
    refine ⟨⟨v, (m.sum + v * n) / ((m.count + n : Int) : Rat), m.sum + v * n, m.count + n⟩,
      ?_, rfl, rfl, rfl, rfl⟩
    simp [AverageMeter.update, hne]

/-- Witness for C10: a meter with count 3 updated with value 2 and
weight 1 succeeds and keeps average = sum / count. -/
theorem averageMeter_zero_weight_error_and_avg_witness :
    ∃ m', (AverageMeter.mk 0 0 0 3).update 2 1 = .ok m'
      ∧ m'.avg = m'.sum / (m'.count : Rat)
      ∧ m'.val = 2 ∧ m'.sum = (AverageMeter.mk 0 0 0 3).sum + 2 * 1
      ∧ m'.count = (AverageMeter.mk 0 0 0 3).count + 1 :=
  averageMeter_zero_weight_error_and_avg.2 ⟨0, 0, 0, 3⟩ 2 1 (by decide)

/-- C1 counterexample: `EarlyStopping(patience=2, val_comp="inf",
init_patience=0)` on the values [5, 4, 5, 5, 5] returns false on the 4th
call (index 3), not the claimed true. -/
theorem earlyStopping_no_stop_on_fourth_call :
    (EarlyStopping.init 2 "inf" 0).map
      (fun st => (st.run [5, 4, 5, 5, 5]).1.getD 3 true) = .ok false := rfl

/-- C1 (amended): on [5, 4, 5, 5, 5] the stop signal comes on the 5th
call (index 4), the decision trace being [false, false, false, false,
true]; in general apply returns true exactly when the value does not
improve the best value, the epochs since the best epoch exceed the
patience, and the current epoch exceeds the warm-up period, and a true
return resets the epoch counter to 0. -/
theorem earlyStopping_stop_on_fifth_call :
    ((EarlyStopping.init 2 "inf" 0).map (fun st => (st.run [5, 4, 5, 5, 5]).1)
      = .ok [false, false, false, false, true])
    ∧ (∀ (st : EarlyStopping) (v : Int),
        (st.apply v).1 = true ↔
          (((st.val_comp = "inf" && npLt v st.best_val)
              || (st.val_comp = "sup" && npGt v st.best_val)) = false
            ∧ st.current_epoch - st.best_epoch > st.patience
            ∧ st.current_epoch > st.first_early_wait))
    ∧ (∀ (st : EarlyStopping) (v : Int),
        (st.apply v).1 = true → (st.apply v).2.current_epoch = 0) := by
  have key : ∀ (st : EarlyStopping) (v : Int),
      ((st.apply v).1 = true ↔
        (((st.val_comp = "inf" && npLt v st.best_val)
            || (st.val_comp = "sup" && npGt v st.best_val)) = false
          ∧ st.current_epoch - st.best_epoch > st.patience
          ∧ st.current_epoch > st.first_early_wait))
      ∧ ((st.apply v).1 = true → (st.apply v).2.current_epoch = 0) := by
    intro st v
    by_cases hc : ((st.val_comp = "inf" && npLt v st.best_val)
        || (st.val_comp = "sup" && npGt v st.best_val)) = true
    · simp [EarlyStopping.apply, hc]
    · rw [Bool.not_eq_true] at hc
      by_cases hs : st.current_epoch - st.best_epoch > st.patience
          ∧ st.current_epoch > st.first_early_wait
      · simp [EarlyStopping.apply, hc, hs]
      · simp [EarlyStopping.apply, hc, hs]
  exact ⟨rfl, fun st v => (key st v).1, fun st v => (key st v).2⟩

/-- Witness for C1 (amended): a concrete state in which apply signals a
stop and resets the epoch counter to 0. -/
theorem earlyStopping_stop_on_fifth_call_witness :
    ((EarlyStopping.mk 2 0 "inf" (some 4) 4 1).apply 5).2.current_epoch = 0 :=
  earlyStopping_stop_on_fifth_call.2.2 ⟨2, 0, "inf", some 4, 4, 1⟩ 5 (by decide)

theorem sliceIdx_natCast (a n : Nat) : sliceIdx (a : Int) n = min a n := by
  simp [sliceIdx]

theorem labelIndex_getElem (labels : List String) (hnd : labels.Nodup) (j : Nat)
    (hj : j < labels.length) : labelIndex labels labels[j] = .ok j := by
  rw [labelIndex, if_pos (List.getElem_mem hj), List.indexOf_getElem hnd j hj]

/-- C5: encoding a single event with onset `o` and exclusive offset `f`
(both within the frame range) sets exactly the frames `o ≤ r < f` of that
label's column to 1 and leaves the other frames of the column 0. -/
theorem encode_strong_df_slice_frames (labels : List String) (hnd : labels.Nodup)
    (n j o f : Nat) (hj : j < labels.length) (hof : o ≤ f) (hfn : f ≤ n) :
    ∃ y, (ManyHotEncoder.mk labels (some n)).encode_strong_df
        (.dfIn true [⟨some labels[j], (o : Int), (f : Int)⟩]) = .ok y
      ∧ y.rows = n ∧ y.cols = labels.length
      ∧ (∀ r, r < n → (y.entry r j = if o ≤ r ∧ r < f then 1 else 0)) := by
  refine ⟨(NpMatrix.zeros n labels.length).setSlice (o : Int) (f : Int) j, ?_, rfl, rfl, ?_⟩
  · rw [ManyHotEncoder.encode_strong_df]
    simp only [List.foldlM_cons, List.foldlM_nil]
    rw [encodeDfStep]
    simp [labelIndex_getElem labels hnd j hj, Except.map]
  · intro r hr
    have h1 : min o n = o := min_eq_left (le_trans hof hfn)
    have h2 : min f n = f := min_eq_left hfn
    simp [NpMatrix.setSlice, NpMatrix.zeros, sliceIdx_natCast, h1, h2]

/-- Witness for C5: two labels, six frames, the event (label b, onset 2,
offset 5) marks exactly frames 2, 3, 4 of column 1. -/
theorem encode_strong_df_slice_frames_witness :
    ∃ y, (ManyHotEncoder.mk ["a", "b"] (some 6)).encode_strong_df
        (.dfIn true [⟨some (["a", "b"] : List String)[1], (2 : Int), (5 : Int)⟩]) = .ok y
      ∧ y.rows = 6 ∧ y.cols = (["a", "b"] : List String).length
      ∧ (∀ r, r < 6 → (y.entry r 1 = if 2 ≤ r ∧ r < 5 then 1 else 0)) :=
  encode_strong_df_slice_frames ["a", "b"] (by decide) 6 1 2 5 (by decide) (by decide) (by decide)

/-- C2 counterexample: a label absent from the vocabulary is not skipped:
`encode_weak` fails with a `ValueError` from `list.index`. -/
theorem encode_weak_unknown_label_error :
    (ManyHotEncoder.mk ["a"] none).encode_weak (.listIn [some "b"])
      = .error "ValueError: b is not in list" := rfl

theorem encodeWeak_fold_ok (labels : List String) :
    ∀ (items : List (Option String)) (y0 : List Int),
      (∀ l, some l ∈ items → l ∈ labels) →
      (∀ v ∈ y0, v = 0 ∨ v = 1) →
      ∃ y, items.foldlM (encodeWeakStep labels) y0 = .ok y
        ∧ y.length = y0.length ∧ (∀ v ∈ y, v = 0 ∨ v = 1) := by
  intro items
  induction items with
  | nil => exact fun y0 _ h0 => ⟨y0, rfl, rfl, h0⟩
  | cons it rest ih =>
    intro y0 h h0
    match it with
    | none =>
        obtain ⟨y, hy, hlen, h01⟩ := ih y0 (fun l hl => h l (by simp [hl])) h0
        refine ⟨y, ?_, hlen, h01⟩
        rw [List.foldlM_cons]
        show (Except.ok y0 >>= fun y1 => rest.foldlM (encodeWeakStep labels) y1) = _
        exact hy
    | some lbl =>
        have hmem : lbl ∈ labels := h lbl (by simp)
        obtain ⟨y, hy, hlen, h01⟩ := ih (y0.set (labels.indexOf lbl) 1)
          (fun l hl => h l (by simp [hl]))
          (fun v hv => by
            rcases List.mem_or_eq_of_mem_set hv with h' | h'
            · exact h0 v h'
            · simp [h'])
        refine ⟨y, ?_, by simpa [List.length_set] using hlen, h01⟩
        rw [List.foldlM_cons]
        have hstep : encodeWeakStep labels y0 (some lbl)
            = .ok (y0.set (labels.indexOf lbl) 1) := by
          simp [encodeWeakStep, labelIndex, hmem, Except.map]
        rw [hstep]
        exact hy

/-- C2 (amended): missing (NaN) entries are skipped without error, but a
label absent from the vocabulary raises a `ValueError`; when every
non-missing entry is in the vocabulary the call succeeds and the result
has one 0/1 entry per vocabulary label. -/
theorem encode_weak_skips_missing (nf : Option Nat) (labels : List String)
    (items : List (Option String)) (h : ∀ l, some l ∈ items → l ∈ labels) :
    ∃ y, (ManyHotEncoder.mk labels nf).encode_weak (.listIn items) = .ok y
      ∧ y.length = labels.length ∧ (∀ v ∈ y, v = 0 ∨ v = 1) := by
  obtain ⟨y, hy, hlen, h01⟩ := encodeWeak_fold_ok labels items (List.replicate labels.length 0)
    h (fun v hv => Or.inl (List.eq_of_mem_replicate hv))
  exact ⟨y, hy, by simpa using hlen, h01⟩

/-- Witness for C2 (amended): a list holding one known label and one NaN
entry encodes without error into a 0/1 vector. -/
theorem encode_weak_skips_missing_witness :
    ∃ y, (ManyHotEncoder.mk ["a", "b"] none).encode_weak (.listIn [some "b", none]) = .ok y
      ∧ y.length = (["a", "b"] : List String).length ∧ (∀ v ∈ y, v = 0 ∨ v = 1) :=
  encode_weak_skips_missing none ["a", "b"] [some "b", none] (by
    intro l hl
    simp at hl
    simp [hl])

/-- C3 counterexample: a DataFrame lacking the onset / offset /
event_label columns is not a sentinel, not a table with those columns and
not a sequence, yet `encode_strong_df` returns the all-zero matrix
instead of failing. -/
theorem encode_strong_df_missing_cols_no_error :
    (ManyHotEncoder.mk ["a"] (some 2)).encode_strong_df (.dfIn false [])
      = .ok (NpMatrix.zeros 2 1) := rfl

/-- C3 (amended): a top-level input of a type other than str, DataFrame,
Series, list or ndarray fails with `NotImplementedError` naming that
type, as does a string other than the sentinel (named as type str); a
sequence element that is neither a string nor of length 3 fails with
`NotImplementedError` naming its type; but a DataFrame lacking the
onset / offset / event_label columns does not fail: it returns the
all-zero matrix. -/
theorem encode_strong_df_type_errors (e : ManyHotEncoder) (n : Nat)
    (hn : e.n_frames = some n) :
    (∀ ty, e.encode_strong_df (.otherIn ty) = .error (strongTypeErr ty))
    ∧ (∀ s, s ≠ "empty" → e.encode_strong_df (.strIn s) = .error (strongTypeErr "str"))
    ∧ (∀ ty rest, e.encode_strong_df (.listIn (.badI ty :: rest))
        = .error ("NotImplementedError: cannot encode strong, type mismatch: " ++ ty))
    ∧ (∀ dfRows, e.encode_strong_df (.dfIn false dfRows)
        = .ok (NpMatrix.zeros n e.labels.length)) := by
  obtain ⟨labels, nf⟩ := e
  simp only [ManyHotEncoder.n_frames] at hn
  subst hn
  refine ⟨fun ty => rfl, fun s hs => ?_, fun ty rest => rfl, fun dfRows => rfl⟩
  simp [ManyHotEncoder.encode_strong_df, hs]

/-- Witness for C3 (amended): a dict input and a non-sentinel string both
fail with the type-naming error. -/
theorem encode_strong_df_type_errors_witness :
    (ManyHotEncoder.mk ["a"] (some 2)).encode_strong_df (.otherIn "dict")
        = .error (strongTypeErr "dict")
    ∧ (ManyHotEncoder.mk ["a"] (some 2)).encode_strong_df (.strIn "abc")
        = .error (strongTypeErr "str") :=
  ⟨(encode_strong_df_type_errors ⟨["a"], some 2⟩ 2 rfl).1 "dict",
   (encode_strong_df_type_errors ⟨["a"], some 2⟩ 2 rfl).2.1 "abc" (by decide)⟩

theorem foldlM_except_inv {α σ : Type} (P : σ → Prop) (f : σ → α → Except String σ)
    (hstep : ∀ s a s', P s → f s a = .ok s' → P s') :
    ∀ (l : List α) (s0 s' : σ), P s0 → l.foldlM f s0 = .ok s' → P s' := by
  intro l
  induction l with
  | nil =>
      intro s0 s' h0 h
      rw [List.foldlM_nil] at h
      cases h
      exact h0
  | cons a l ih =>
      intro s0 s' h0 h
      rw [List.foldlM_cons] at h
      cases hfa : f s0 a with
      | error msg => rw [hfa] at h; exact Except.noConfusion h
      | ok s1 => rw [hfa] at h; exact ih s1 s' (hstep s0 a s1 h0 hfa) h

theorem setSlice_shape01 {n L : Nat} {y : NpMatrix} (h : Shape01 n L y)
    (onset offset : Int) (c : Nat) : Shape01 n L (y.setSlice onset offset c) := by
  obtain ⟨hr, hc, h01⟩ := h
  refine ⟨hr, hc, fun r c' hrn hcL => ?_⟩
  dsimp [NpMatrix.setSlice]
  split
  · simp
  · exact h01 r c' hrn hcL

theorem setColFull_shape01 {n L : Nat} {y : NpMatrix} (h : Shape01 n L y)
    (c : Nat) : Shape01 n L (y.setColFull c) := by
  obtain ⟨hr, hc, h01⟩ := h
  refine ⟨hr, hc, fun r c' hrn hcL => ?_⟩
  dsimp [NpMatrix.setColFull]
  split
  · simp
  · exact h01 r c' hrn hcL

theorem encodeDfStep_shape01 {n L : Nat} (labels : List String) :
    ∀ (y : NpMatrix) (row : DfRow) (y' : NpMatrix), Shape01 n L y →
      encodeDfStep labels y row = .ok y' → Shape01 n L y' := by
  intro y row y' hP h
  match row with
  | ⟨none, onset, offset⟩ => rw [encodeDfStep] at h; cases h; exact hP
  | ⟨some lbl, onset, offset⟩ =>
      rw [encodeDfStep] at h
      dsimp only at h
      cases hidx : labelIndex labels lbl with
      | error msg => rw [hidx] at h; exact Except.noConfusion h
      | ok i =>
          rw [hidx] at h
          cases h
          exact setSlice_shape01 hP onset offset i

theorem encodeSeqStep_shape01 {n L : Nat} (labels : List String) :
    ∀ (y : NpMatrix) (it : SeqItem) (y' : NpMatrix), Shape01 n L y →
      encodeSeqStep labels y it = .ok y' → Shape01 n L y' := by
  intro y it y' hP h
  match it with
  | .strI s =>
      rw [encodeSeqStep] at h
      by_cases hs : s = ""
      · rw [if_neg (by simp [hs])] at h; cases h; exact hP
      · rw [if_pos hs] at h
        cases hidx : labelIndex labels s with
        | error msg => rw [hidx] at h; exact Except.noConfusion h
        | ok i => rw [hidx] at h; cases h; exact setColFull_shape01 hP i
  | .tupleI lbl onset offset =>
      rw [encodeSeqStep] at h
      by_cases hs : lbl = ""
      · rw [if_neg (by simp [hs])] at h; cases h; exact hP
      · rw [if_pos hs] at h
        cases hidx : labelIndex labels lbl with
        | error msg => rw [hidx] at h; exact Except.noConfusion h
        | ok i => rw [hidx] at h; cases h; exact setSlice_shape01 hP onset offset i
  | .badI ty => exact Except.noConfusion h

/-- C9: every successful non-sentinel call of `encode_strong_df` (frame
count set) returns a matrix with exactly `n_frames` rows, one column per
vocabulary label, and every in-range entry 0 or 1. -/
theorem encode_strong_df_shape (e : ManyHotEncoder) (n : Nat) (hn : e.n_frames = some n)
    (inp : StrongInput) (hne : inp ≠ .strIn "empty") (y : NpMatrix)
    (h : e.encode_strong_df inp = .ok y) :
    Shape01 n e.labels.length y := by
  obtain ⟨labels, nf⟩ := e
  simp only [ManyHotEncoder.n_frames] at hn
  simp only [ManyHotEncoder.labels]
  subst hn
  have hz : Shape01 n labels.length (NpMatrix.zeros n labels.length) :=
    ⟨rfl, rfl, fun r c _ _ => Or.inl rfl⟩
  cases inp with
  | strIn s =>
      by_cases hs : s = "empty"
      · subst hs; exact absurd rfl hne
      · simp [ManyHotEncoder.encode_strong_df, hs] at h
  | dfIn hasCols dfRows =>
      cases hasCols with
      | false =>
          simp [ManyHotEncoder.encode_strong_df] at h
          rw [← h]
          exact hz
      | true =>
          have h' : dfRows.foldlM (encodeDfStep labels) (NpMatrix.zeros n labels.length)
              = .ok y := h
          exact foldlM_except_inv _ _ (encodeDfStep_shape01 labels) dfRows _ y hz h'
  | seriesIn hasKeys row items =>
      cases hasKeys with
      | false =>
          have h' : items.foldlM (encodeSeqStep labels) (NpMatrix.zeros n labels.length)
              = .ok y := h
          exact foldlM_except_inv _ _ (encodeSeqStep_shape01 labels) items _ y hz h'
      | true =>
          have h' : encodeDfStep labels (NpMatrix.zeros n labels.length) row = .ok y := h
          exact encodeDfStep_shape01 labels _ row y hz h'
  | listIn items =>
      have h' : items.foldlM (encodeSeqStep labels) (NpMatrix.zeros n labels.length)
          = .ok y := h
      exact foldlM_except_inv _ _ (encodeSeqStep_shape01 labels) items _ y hz h'
  | otherIn ty => exact Except.noConfusion h

/-- Witness for C9: the empty-list input yields the all-zero 2-by-1
matrix, which satisfies the shape and 0/1 invariant. -/
theorem encode_strong_df_shape_witness :
    Shape01 2 (ManyHotEncoder.mk ["a"] (some 2)).labels.length (NpMatrix.zeros 2 1) :=
  encode_strong_df_shape ⟨["a"], some 2⟩ 2 rfl (.listIn []) (by decide)
    (NpMatrix.zeros 2 1) rfl

theorem decodeWeakAux_eq (labels : List String) :
    ∀ (vec : List Int) (i : Nat), i + vec.length ≤ labels.length →
      decodeWeakAux labels i vec
        = (((labels.drop i).zip vec).filter (fun p => p.2 == 1)).map Prod.fst := by
  intro vec
  induction vec with
  | nil => intro i h; simp [decodeWeakAux]
  | cons v vs ih =>
      intro i h
      have hi : i < labels.length := by
        simp only [List.length_cons] at h; omega
      have h' : (i + 1) + vs.length ≤ labels.length := by
        simp only [List.length_cons] at h; omega
      have hgd : labels.getD i "" = labels[i] := List.getD_eq_getElem labels "" hi
      rw [List.drop_eq_getElem_cons hi, List.zip_cons_cons, List.filter_cons]
      by_cases hv : v = 1
      · simp [decodeWeakAux, hv, hgd, ih (i + 1) h', List.getElem?_eq_getElem hi]
      · simp [decodeWeakAux, hv, ih (i + 1) h']

/-- C7: for a vector with one entry per vocabulary label, `decode_weak`
returns exactly the labels paired with a 1 entry, in vocabulary order —
a sublist of the vocabulary. -/
theorem decode_weak_ones (e : ManyHotEncoder) (vec : List Int)
    (hlen : vec.length = e.labels.length) :
    e.decode_weak vec = ((e.labels.zip vec).filter (fun p => p.2 == 1)).map Prod.fst
    ∧ (e.decode_weak vec).Sublist e.labels := by
  have h0 : 0 + vec.length ≤ e.labels.length := by omega
  have heq := decodeWeakAux_eq e.labels vec 0 h0
  rw [List.drop_zero] at heq
  have hsub := List.Sublist.map Prod.fst (List.filter_sublist (p := fun p => p.2 == 1)
    (e.labels.zip vec))
  rw [List.map_fst_zip _ _ (le_of_eq hlen.symm)] at hsub
  constructor
  · exact heq
  · rw [ManyHotEncoder.decode_weak, heq]
    exact hsub

/-- Witness for C7: vector [1, 0, 1] over labels a, b, c decodes to the
1-entries' labels. -/
theorem decode_weak_ones_witness :
    (ManyHotEncoder.mk ["a", "b", "c"] none).decode_weak [1, 0, 1]
        = (((["a", "b", "c"] : List String).zip ([1, 0, 1] : List Int)).filter
            (fun p => p.2 == 1)).map Prod.fst
    ∧ ((ManyHotEncoder.mk ["a", "b", "c"] none).decode_weak [1, 0, 1]).Sublist
        ["a", "b", "c"] :=
  decode_weak_ones ⟨["a", "b", "c"], none⟩ [1, 0, 1] (by decide)

theorem getD_cons_sub (x : Int) (xs : List Int) (p i : Nat) :
    (x :: xs).getD (p - i) 0 = if p ≤ i then x else xs.getD (p - (i + 1)) 0 := by
  by_cases hpi : p ≤ i
  · have h0 : p - i = 0 := by omega
    rw [h0, List.getD_cons_zero, if_pos hpi]
  · have hs : p - i = (p - (i + 1)) + 1 := by omega
    rw [hs, List.getD_cons_succ, if_neg hpi]

theorem coveredBy_cons (a b : Nat) (l : List (Nat × Nat)) (p : Nat) :
    coveredBy ((a, b) :: l) p ↔ (a ≤ p ∧ p < b) ∨ coveredBy l p := by
  simp [coveredBy]

theorem runsAux_covers (xs : List Int) :
    ∀ (i p : Nat),
      (coveredBy (runsAux xs i none) p ↔ (i ≤ p ∧ xs.getD (p - i) 0 ≠ 0))
      ∧ (∀ s, s ≤ i →
          (coveredBy (runsAux xs i (some s)) p ↔
            ((s ≤ p ∧ p < i) ∨ (i ≤ p ∧ xs.getD (p - i) 0 ≠ 0)))) := by
  induction xs with
  | nil =>
      intro i p
      constructor
      · simp [runsAux, coveredBy]
      · intro s hs
        simp [runsAux, coveredBy]
  | cons x xs ih =>
      intro i p
      constructor
      · by_cases hx : x = 0
        · rw [runsAux, if_pos hx, (ih (i + 1) p).1, getD_cons_sub]
          constructor
          · rintro ⟨h1, h2⟩
            exact ⟨by omega, by rw [if_neg (by omega)]; exact h2⟩
          · rintro ⟨h1, h2⟩
            by_cases hpi : p ≤ i
            · have hp : p = i := by omega
              rw [if_pos hpi] at h2
              exact absurd hx h2
            · rw [if_neg hpi] at h2
              exact ⟨by omega, h2⟩
        · rw [runsAux, if_neg hx, (ih (i + 1) p).2 i (by omega), getD_cons_sub]
          constructor
          · rintro (⟨h1, h2⟩ | ⟨h1, h2⟩)
            · have hp : p = i := by omega
              exact ⟨by omega, by rw [if_pos (by omega)]; exact hx⟩
            · exact ⟨by omega, by rw [if_neg (by omega)]; exact h2⟩
          · rintro ⟨h1, h2⟩
            by_cases hpi : p ≤ i
            · exact Or.inl ⟨by omega, by omega⟩
            · rw [if_neg hpi] at h2
              exact Or.inr ⟨by omega, h2⟩
      · intro s hs
        by_cases hx : x = 0
        · rw [runsAux, if_pos hx, coveredBy_cons, (ih (i + 1) p).1, getD_cons_sub]
          constructor
          · rintro (⟨h1, h2⟩ | ⟨h1, h2⟩)
            · exact Or.inl ⟨h1, h2⟩
            · exact Or.inr ⟨by omega, by rw [if_neg (by omega)]; exact h2⟩
          · rintro (⟨h1, h2⟩ | ⟨h1, h2⟩)
            · exact Or.inl ⟨h1, h2⟩
            · by_cases hpi : p ≤ i
              · have hp : p = i := by omega
                rw [if_pos hpi] at h2
                exact absurd hx h2
              · rw [if_neg hpi] at h2
                exact Or.inr ⟨by omega, h2⟩
        · rw [runsAux, if_neg hx, (ih (i + 1) p).2 s (by omega), getD_cons_sub]
          constructor
          · rintro (⟨h1, h2⟩ | ⟨h1, h2⟩)
            · by_cases hpi : p = i
              · exact Or.inr ⟨by omega, by rw [if_pos (by omega)]; exact hx⟩
              · exact Or.inl ⟨h1, by omega⟩
            · exact Or.inr ⟨by omega, by rw [if_neg (by omega)]; exact h2⟩
          · rintro (⟨h1, h2⟩ | ⟨h1, h2⟩)
            · exact Or.inl ⟨h1, by omega⟩
            · by_cases hpi : p ≤ i
              · exact Or.inl ⟨by omega, by omega⟩
              · rw [if_neg hpi] at h2
                exact Or.inr ⟨by omega, h2⟩

theorem find_contiguous_regions_covers (col : List Int) (p : Nat) :
    coveredBy (find_contiguous_regions col) p ↔ col.getD p 0 ≠ 0 := by
  have h := (runsAux_covers col 0 p).1
  simpa [find_contiguous_regions] using h

theorem paintAll_cons (labels : List String) (ev : String × Nat × Nat)
    (evs : List (String × Nat × Nat)) (y0 : NpMatrix) :
    paintAll labels (ev :: evs) y0
      = paintAll labels evs
          (y0.setSlice (ev.2.1 : Int) (ev.2.2 : Int) (labels.indexOf ev.1)) := rfl

theorem paintAll_dims (labels : List String) (evs : List (String × Nat × Nat)) :
    ∀ y0 : NpMatrix, (paintAll labels evs y0).rows = y0.rows
      ∧ (paintAll labels evs y0).cols = y0.cols := by
  induction evs with
  | nil => exact fun y0 => ⟨rfl, rfl⟩
  | cons ev evs ih =>
      intro y0
      rw [paintAll_cons]
      exact ih _

theorem paintAll_entry_eq (labels : List String) (evs : List (String × Nat × Nat)) :
    ∀ (y0 : NpMatrix) (r c : Nat), r < y0.rows →
      ((∃ ev ∈ evs, evCovers labels r c ev) → (paintAll labels evs y0).entry r c = 1)
      ∧ (¬ (∃ ev ∈ evs, evCovers labels r c ev) →
          (paintAll labels evs y0).entry r c = y0.entry r c) := by
  induction evs with
  | nil =>
      intro y0 r c _
      constructor
      · rintro ⟨ev, hev, _⟩
        exact absurd hev (List.not_mem_nil ev)
      · intro
        rfl
  | cons ev evs ih =>
      intro y0 r c hr
      set y1 := y0.setSlice (ev.2.1 : Int) (ev.2.2 : Int) (labels.indexOf ev.1) with hy1
      have hr1 : r < y1.rows := hr
      obtain ⟨ihpos, ihneg⟩ := ih y1 r c hr1
      have hslice : ∀ hcv : evCovers labels r c ev,
          y1.entry r c = 1 := by
        intro hcv
        obtain ⟨hidx, hs1, hs2⟩ := hcv
        have hb1 : sliceIdx (ev.2.1 : Int) y0.rows ≤ r := by
          rw [sliceIdx_natCast]
          omega
        have hb2 : r < sliceIdx (ev.2.2 : Int) y0.rows := by
          rw [sliceIdx_natCast]
          omega
        rw [hy1]
        dsimp [NpMatrix.setSlice]
        rw [if_pos ⟨hidx.symm, hb1, hb2⟩]
      constructor
      · rintro ⟨e, he, hec⟩
        rcases List.mem_cons.mp he with heq | he'
        · by_cases hex : ∃ e' ∈ evs, evCovers labels r c e'
          · exact (paintAll_cons labels ev evs y0) ▸ ihpos hex
          · rw [paintAll_cons]
            rw [ihneg hex]
            exact hslice (heq ▸ hec)
        · exact (paintAll_cons labels ev evs y0) ▸ ihpos ⟨e, he', hec⟩
      · intro hnex
        have hex' : ¬ ∃ e ∈ evs, evCovers labels r c e := by
          rintro ⟨e, he, hec⟩
          exact hnex ⟨e, List.mem_cons_of_mem _ he, hec⟩
        rw [paintAll_cons, ihneg hex']
        rw [hy1]
        dsimp [NpMatrix.setSlice]
        rw [if_neg ?_]
        rintro ⟨hc, hs1, hs2⟩
        rw [sliceIdx_natCast] at hs1 hs2
        exact hnex ⟨ev, List.mem_cons_self _ _, hc.symm, by omega, by omega⟩

theorem encode_tuples_ok (labels : List String) :
    ∀ (evs : List (String × Nat × Nat)) (y0 : NpMatrix),
      (∀ ev ∈ evs, ev.1 ∈ labels ∧ ev.1 ≠ "") →
      (evs.map (fun ev => SeqItem.tupleI ev.1 (ev.2.1 : Int) (ev.2.2 : Int))).foldlM
          (encodeSeqStep labels) y0
        = .ok (paintAll labels evs y0) := by
  intro evs
  induction evs with
  | nil => intro y0 _; rfl
  | cons ev evs ih =>
      intro y0 h
      obtain ⟨hmem, hne⟩ := h ev (List.mem_cons_self _ _)
      rw [List.map_cons, List.foldlM_cons]
      have hstep : encodeSeqStep labels y0 (SeqItem.tupleI ev.1 (ev.2.1 : Int) (ev.2.2 : Int))
          = .ok (y0.setSlice (ev.2.1 : Int) (ev.2.2 : Int) (labels.indexOf ev.1)) := by
        rw [encodeSeqStep]
        rw [if_pos hne]
        simp [labelIndex, hmem, Except.map]
      rw [hstep]
      show (evs.map fun ev => SeqItem.tupleI ev.1 (ev.2.1 : Int) (ev.2.2 : Int)).foldlM
          (encodeSeqStep labels)
          (y0.setSlice (ev.2.1 : Int) (ev.2.2 : Int) (labels.indexOf ev.1)) = _
      rw [ih _ (fun e he => h e (List.mem_cons_of_mem _ he))]
      rfl

theorem colList_getD (y : NpMatrix) (c r : Nat) (hr : r < y.rows) :
    (colList y c).getD r 0 = y.entry r c := by
  rw [colList]
  rw [List.getD_eq_getElem _ _ (by simpa using hr), List.getElem_map, List.getElem_range]

theorem decode_strong_mem (e : ManyHotEncoder) (y : NpMatrix) (ev : String × Nat × Nat) :
    ev ∈ e.decode_strong y
      ↔ ∃ c, c < y.cols ∧ ∃ se ∈ find_contiguous_regions (colList y c),
          ev = (e.labels.getD c "", se.1, se.2) := by
  rw [ManyHotEncoder.decode_strong]
  simp only [List.mem_flatMap, List.mem_range, List.mem_map]
  constructor
  · rintro ⟨c, hc, se, hse, rfl⟩
    exact ⟨c, hc, se, hse, rfl⟩
  · rintro ⟨c, hc, se, hse, rfl⟩
    exact ⟨c, hc, se, hse, rfl⟩

theorem decode_covers_entry (e : ManyHotEncoder) (y : NpMatrix) (hnd : e.labels.Nodup)
    (hc : y.cols = e.labels.length)
    (h01 : ∀ r c, r < y.rows → c < y.cols → y.entry r c = 0 ∨ y.entry r c = 1)
    (r c : Nat) (hr : r < y.rows) (hcl : c < y.cols) :
    (∃ ev ∈ e.decode_strong y, evCovers e.labels r c ev) ↔ y.entry r c = 1 := by
  constructor
  · rintro ⟨ev, hev, hcov⟩
    rw [decode_strong_mem] at hev
    obtain ⟨c', hc', se, hse, rfl⟩ := hev
    obtain ⟨hidx, hs1, hs2⟩ := hcov
    have hcl' : c' < e.labels.length := hc ▸ hc'
    have hgd : e.labels.getD c' "" = e.labels[c'] := List.getD_eq_getElem _ _ hcl'
    have hcc : c' = c := by
      rw [hgd] at hidx
      rw [List.indexOf_getElem hnd c' hcl'] at hidx
      exact hidx
    subst hcc
    have hcov' : coveredBy (find_contiguous_regions (colList y c')) r := ⟨se, hse, hs1, hs2⟩
    rw [find_contiguous_regions_covers, colList_getD y c' r hr] at hcov'
    rcases h01 r c' hr hc' with h0 | h1
    · exact absurd h0 hcov'
    · exact h1
  · intro h1
    have hne : (colList y c).getD r 0 ≠ 0 := by
      rw [colList_getD y c r hr, h1]
      norm_num
    rw [← find_contiguous_regions_covers] at hne
    obtain ⟨se, hse, hs1, hs2⟩ := hne
    have hcl' : c < e.labels.length := hc ▸ hcl
    refine ⟨(e.labels.getD c "", se.1, se.2), ?_, ?_, hs1, hs2⟩
    · rw [decode_strong_mem]
      exact ⟨c, hcl, se, hse, rfl⟩
    · rw [List.getD_eq_getElem _ _ hcl']
      exact List.indexOf_getElem hnd c hcl'

theorem flatMap_congr_of_eq {α β : Type} (f g : α → List β) :
    ∀ l : List α, (∀ a ∈ l, f a = g a) → l.flatMap f = l.flatMap g := by
  intro l
  induction l with
  | nil => intro; rfl
  | cons a l ih =>
      intro h
      rw [List.flatMap_cons, List.flatMap_cons, h a (List.mem_cons_self _ _),
        ih (fun a ha => h a (List.mem_cons_of_mem _ ha))]

theorem decode_strong_congr (e : ManyHotEncoder) (y y' : NpMatrix)
    (hr : y'.rows = y.rows) (hc : y'.cols = y.cols)
    (he : ∀ r c, r < y.rows → c < y.cols → y'.entry r c = y.entry r c) :
    e.decode_strong y' = e.decode_strong y := by
  rw [ManyHotEncoder.decode_strong, ManyHotEncoder.decode_strong, hc]
  apply flatMap_congr_of_eq
  intro c hcr
  rw [List.mem_range] at hcr
  have hcol : colList y' c = colList y c := by
    rw [colList, colList, hr]
    apply List.map_congr_left
    intro r hrr
    rw [List.mem_range] at hrr
    exact he r c hrr hcr
  rw [hcol]

/-- C4: for a 0/1 strong label matrix of the encoder's shape (distinct,
nonempty vocabulary labels), decoding, re-encoding the decoded event
list and decoding again reproduces the decoded events exactly. -/
theorem decode_encode_decode_roundtrip (e : ManyHotEncoder) (n : Nat)
    (hn : e.n_frames = some n) (hnd : e.labels.Nodup) (hne : ∀ l ∈ e.labels, l ≠ "")
    (M : NpMatrix) (hrows : M.rows = n) (hcols : M.cols = e.labels.length)
    (h01 : ∀ r < M.rows, ∀ c < M.cols, M.entry r c = 0 ∨ M.entry r c = 1) :
    ∃ M', e.encode_strong_df (eventsToInput (e.decode_strong M)) = .ok M'
      ∧ e.decode_strong M' = e.decode_strong M := by
  obtain ⟨labels, nf⟩ := e
  simp only [ManyHotEncoder.n_frames] at hn
  simp only [ManyHotEncoder.labels] at hnd hne hcols
  subst hn
  have h01' : ∀ r c, r < M.rows → c < M.cols → M.entry r c = 0 ∨ M.entry r c = 1 :=
    fun r c hr hc => h01 r hr c hc
  set evs := (⟨labels, some n⟩ : ManyHotEncoder).decode_strong M with hevs
  have hall : ∀ ev ∈ evs, ev.1 ∈ labels ∧ ev.1 ≠ "" := by
    intro ev hev
    rw [hevs, decode_strong_mem] at hev
    obtain ⟨c, hc, se, hse, rfl⟩ := hev
    have hcl : c < labels.length := hcols ▸ hc
    have hgd : (⟨labels, some n⟩ : ManyHotEncoder).labels.getD c "" = labels[c] :=
      List.getD_eq_getElem _ _ hcl
    constructor
    · rw [show ((⟨labels, some n⟩ : ManyHotEncoder).labels.getD c "", se.1, se.2).1
          = (⟨labels, some n⟩ : ManyHotEncoder).labels.getD c "" from rfl, hgd]
      exact List.getElem_mem hcl
    · rw [show ((⟨labels, some n⟩ : ManyHotEncoder).labels.getD c "", se.1, se.2).1
          = (⟨labels, some n⟩ : ManyHotEncoder).labels.getD c "" from rfl, hgd]
      exact hne _ (List.getElem_mem hcl)
  have henc : (⟨labels, some n⟩ : ManyHotEncoder).encode_strong_df (eventsToInput evs)
      = .ok (paintAll labels evs (NpMatrix.zeros n labels.length)) :=
    encode_tuples_ok labels evs (NpMatrix.zeros n labels.length) hall
  set M' := paintAll labels evs (NpMatrix.zeros n labels.length) with hM'
  have hdims := paintAll_dims labels evs (NpMatrix.zeros n labels.length)
  have hrows' : M'.rows = n := hdims.1
  have hcols' : M'.cols = labels.length := hdims.2
  have hent : ∀ r c, r < M.rows → c < M.cols → M'.entry r c = M.entry r c := by
    intro r c hr hc
    have hr0 : r < (NpMatrix.zeros n labels.length).rows := by
      rw [show (NpMatrix.zeros n labels.length).rows = n from rfl, ← hrows]
      exact hr
    obtain ⟨hpos, hneg⟩ := paintAll_entry_eq labels evs (NpMatrix.zeros n labels.length) r c hr0
    have hiff := decode_covers_entry ⟨labels, some n⟩ M hnd hcols h01' r c hr hc
    by_cases hex : ∃ ev ∈ evs, evCovers labels r c ev
    · rw [hM', hpos hex, hiff.1 hex]
    · rw [hM', hneg hex]
      rcases h01' r c hr hc with h0 | h1
      · rw [h0]
        rfl
      · exact absurd (hiff.2 h1) hex
  refine ⟨M', henc, ?_⟩
  exact decode_strong_congr ⟨labels, some n⟩ M M' (by rw [hrows', hrows])
    (by rw [hcols', hcols]) hent

/-- Witness for C4: the round trip on a concrete 3-by-2 matrix with one
run per column. -/
theorem decode_encode_decode_roundtrip_witness :
    ∃ M', (ManyHotEncoder.mk ["a", "b"] (some 3)).encode_strong_df
        (eventsToInput ((ManyHotEncoder.mk ["a", "b"] (some 3)).decode_strong
          roundtripExample)) = .ok M'
      ∧ (ManyHotEncoder.mk ["a", "b"] (some 3)).decode_strong M'
          = (ManyHotEncoder.mk ["a", "b"] (some 3)).decode_strong roundtripExample :=
  decode_encode_decode_roundtrip ⟨["a", "b"], some 3⟩ 3 rfl (by decide) (by decide)
    roundtripExample rfl rfl (by decide)
